import Mathlib

/-!
# Verification of the fgoxide `io` module

A shallow embedding of `src/io/mod.rs`: extension-based compression
classification (`Io::is_gzip_path` / `is_zstd_path` / `is_fastq_path`),
the reader/writer construction of `Io::new_reader` / `Io::new_writer`,
line-oriented I/O (`Io::read_lines` / `Io::write_lines`), and the
delimited-record layer (`DelimFile::write` / `read` and their CSV/TSV
presets).

File contents are modelled as lists of characters (one `Char` per byte),
the filesystem as a partial map from path strings to contents.  The
external compression codecs (flate2, zstd) are out of scope of the spec
("assumed correct, provided by external libraries") and are modelled as
injective framing transforms with a magic prefix and a trailer byte, so
that encode/decode round-trip and a truncated stream is rejected.
-/

/-- File contents / field values: a list of characters, one per byte. -/
abbrev Text := List Char

/-- The filesystem: a partial map from paths to file contents. -/
abbrev FS := String → Option Text

/-- The two error kinds of the crate error type (`FgError::IoError` /
`FgError::ConversionError`). -/
inductive FgError where
  | ioError
  | conversionError
deriving DecidableEq, Repr

/-! ## Path extension model (Rust `std::path::Path::extension`) -/

/-- The final path component (the part after the last `/`).
Models `Path::file_name` for ordinary relative/absolute file paths. -/
def fileNameChars (cs : List Char) : List Char :=
  ((cs.reverse.takeWhile (fun c => c ≠ '/'))).reverse

/-- Modelled from the Rust standard library's documented `Path::extension`
semantics (the source calls `p.as_ref().extension()`): the portion of the
file name after the last `.`, or `none` when there is no `.`, the file
name starts with its only `.`, or the file name is `..`. -/
def extensionChars (cs : List Char) : Option (List Char) :=
  let f := fileNameChars cs
  if f = ['.', '.'] then none
  else
    let r := f.reverse
    let ext := r.takeWhile (fun c => c ≠ '.')
    match r.dropWhile (fun c => c ≠ '.') with
    | [] => none
    | _ :: stemRev => if stemRev = [] then none else some ext.reverse

/-- `Path::extension` on a path string. -/
def extension? (p : String) : Option String :=
  (extensionChars p.toList).map (fun l => ⟨l⟩)

/-- `FASTQ_EXTENSIONS` from the source. -/
def FASTQ_EXTENSIONS : List String := ["fastq", "fq"]

/-- `GZIP_EXTENSIONS` from the source. -/
def GZIP_EXTENSIONS : List String := ["gz", "bgz"]

/-- `ZSTD_EXTENSIONS` from the source. -/
def ZSTD_EXTENSIONS : List String := ["zst"]

/-- `BUFFER_SIZE` from the source. -/
def BUFFER_SIZE : Nat := 64 * 1024

/-- The `Io` configuration struct: compression level and buffer size. -/
structure Io where
  compression : Nat
  buffer_size : Nat
deriving DecidableEq, Repr

/-- `Io::new`. -/
def Io.new (compression : Nat) (buffer_size : Nat) : Io :=
  { compression := compression, buffer_size := buffer_size }

/-- `Io::default`: gzip level 5, 64 KiB buffers. -/
def Io.default : Io := Io.new 5 BUFFER_SIZE

/-- `Io::is_path_with_extension`: the path's extension is a member of the
given recognized set. -/
def Io.is_path_with_extension (p : String) (extensions : List String) : Bool :=
  match extension? p with
  | some x => extensions.contains x
  | none => false

/-- `Io::is_fastq_path`. -/
def Io.is_fastq_path (p : String) : Bool :=
  Io.is_path_with_extension p FASTQ_EXTENSIONS

/-- `Io::is_gzip_path`. -/
def Io.is_gzip_path (p : String) : Bool :=
  Io.is_path_with_extension p GZIP_EXTENSIONS

/-- `Io::is_zstd_path`. -/
def Io.is_zstd_path (p : String) : Bool :=
  Io.is_path_with_extension p ZSTD_EXTENSIONS

/-! ## Codec models

The spec places the codecs out of scope ("the underlying compression
codecs themselves ... assumed correct, provided by external libraries"),
so they are modelled as injective framing transforms: a magic prefix, the
payload, and one trailer byte (standing for the CRC/size trailer that the
real encoders emit at finalization).  Decoding checks the magic and the
trailer, so a stream truncated before finalization is rejected. -/

/-- The two gzip magic bytes `1f 8b`. -/
def GZ_MAGIC : Text := [Char.ofNat 0x1f, Char.ofNat 0x8b]

/-- The four zstd frame magic bytes `28 b5 2f fd`. -/
def ZSTD_MAGIC : Text := [Char.ofNat 0x28, Char.ofNat 0xb5, Char.ofNat 0x2f, Char.ofNat 0xfd]

/-- Stand-in for the checksum/size trailer written at encoder finalization. -/
def TRAILER : Char := Char.ofNat 0x00

/-- Model gzip encoder: magic, payload, finalization trailer. -/
def gzipEncode (payload : Text) : Text :=
  GZ_MAGIC ++ payload ++ [TRAILER]

/-- Model gzip decoder: checks magic and trailer, yields the payload. -/
def gzipDecode (bs : Text) : Except FgError Text :=
  if bs.take 2 = GZ_MAGIC ∧ GZ_MAGIC.length + 1 ≤ bs.length ∧ bs.getLast? = some TRAILER
  then .ok ((bs.drop 2).dropLast)
  else .error .ioError

/-- Model zstd encoder: magic, payload, finalization trailer. -/
def zstdEncode (payload : Text) : Text :=
  ZSTD_MAGIC ++ payload ++ [TRAILER]

/-- Model zstd decoder: checks magic and trailer, yields the payload. -/
def zstdDecode (bs : Text) : Except FgError Text :=
  if bs.take 4 = ZSTD_MAGIC ∧ ZSTD_MAGIC.length + 1 ≤ bs.length ∧ bs.getLast? = some TRAILER
  then .ok ((bs.drop 4).dropLast)
  else .error .ioError

/-- The encoder chain chosen by `Io::new_writer` (lines 110-116 of the
source): gzip-classified paths gzip-encode, zstd-classified paths
zstd-encode, everything else is written raw. -/
def Io.encodeForPath (p : String) (payload : Text) : Text :=
  if Io.is_gzip_path p then gzipEncode payload
  else if Io.is_zstd_path p then zstdEncode payload
  else payload

/-- The decoder chain chosen by `Io::new_reader` (lines 92-101 of the
source), applied to stored file bytes. -/
def Io.decodeForPath (p : String) (bs : Text) : Except FgError Text :=
  if Io.is_gzip_path p then gzipDecode bs
  else if Io.is_zstd_path p then zstdDecode bs
  else .ok bs

/-- `Io::new_reader`: opening a missing path is an I/O error
(`File::open ... map_err(FgError::IoError)`); otherwise the decoder for
the path's classification is applied (the zstd decoder reads the frame
header at construction time, hence a malformed zstd stream already fails
at open). -/
def Io.new_reader (fs : FS) (p : String) : Except FgError Text :=
  match fs p with
  | none => .error .ioError
  | some bs => Io.decodeForPath p bs

/-- The writer chain constructed by `Io::new_writer`: which encoder wraps
the file, with which level, under the outer `BufWriter`. -/
inductive WriterChain where
  | plain (buffer_size : Nat)
  | gzip (level : Nat) (buffer_size : Nat)
  | zstd (level : Nat) (auto_finish : Bool) (buffer_size : Nat)
deriving DecidableEq, Repr

/-- `Io::new_writer` chain selection, lines 110-118 of the source:
`GzEncoder::new(file, self.compression)` for gzip paths,
`ZstdEncoder::new(file, 0)...auto_finish()` for zstd paths (the literal
level 0, i.e. the zstd default, regardless of `self.compression`), the
raw file otherwise; always wrapped in
`BufWriter::with_capacity(self.buffer_size, ..)`. -/
def Io.new_writer_chain (io : Io) (p : String) : WriterChain :=
  if Io.is_gzip_path p then .gzip io.compression io.buffer_size
  else if Io.is_zstd_path p then .zstd 0 true io.buffer_size
  else .plain io.buffer_size

/-- Equality of `Except` results is decidable componentwise (used to
evaluate round-trip results on concrete inputs). -/
instance {ε α : Type _} [DecidableEq ε] [DecidableEq α] : DecidableEq (Except ε α)
  | .ok a, .ok b => decidable_of_iff (a = b) (by simp)
  | .ok _, .error _ => .isFalse (by intro h; cases h)
  | .error _, .ok _ => .isFalse (by intro h; cases h)
  | .error a, .error b => decidable_of_iff (a = b) (by simp)

/-! ## Line-oriented I/O (`Io::read_lines` / `Io::write_lines`) -/

/-- The logical bytes produced by the loop of `Io::write_lines`
(lines 142-145 of the source): each line followed by one `\n`. -/
def linesText (lines : List Text) : Text :=
  lines.flatMap (fun l => l ++ ['\n'])

/-- Split on `\n`, exclusively: the chunks between newline characters.
Always non-empty; every chunk but the last was newline-terminated in the
input. -/
def splitNl : List Char → List (List Char)
  | [] => [[]]
  | c :: cs =>
    let r := splitNl cs
    if c = '\n' then [] :: r
    else
      match r with
      | [] => [[c]]
      | l :: ls => (c :: l) :: ls

/-- Remove one trailing carriage return, if present (the CRLF handling of
Rust's `BufRead::lines`). -/
def stripCr (l : List Char) : List Char :=
  if l.getLast? = some '\r' then l.dropLast else l

/-- Rust `BufRead::lines` semantics, used by `Io::read_lines`
(lines 126-132 of the source): split at `\n`, strip the `\n` and a `\r`
directly before it; a final chunk not terminated by `\n` is returned
as-is, and a final empty chunk (content ending in `\n`) produces no
line. -/
def rustReadLines (content : Text) : List Text :=
  (splitNl content).dropLast.map stripCr ++
    (match (splitNl content).getLast? with
     | some [] => []
     | some l => [l]
     | none => [])

/-- `Io::write_lines`: creates/truncates the file at `p` with the encoded
line content (encoder chain chosen by `Io::new_writer` from the path). -/
def Io.write_lines (fs : FS) (p : String) (lines : List Text) : FS :=
  fun q => if q = p then some (Io.encodeForPath p (linesText lines)) else fs q

/-- `Io::read_lines`: open a reader for `p` and collect its lines. -/
def Io.read_lines (fs : FS) (p : String) : Except FgError (List Text) :=
  (Io.new_reader fs p).map rustReadLines

/-! ## Delimited-record layer (`DelimFile`)

The record serializer is the external serde collaborator: the spec's
interface is "decompose a record into an ordered sequence of
(fieldName, textValue) pairs" and the inverse.  A field is therefore a
text value or absent (a `None`-valued optional field); the schema gives
each column's name and whether it is optional. -/

/-- Whether a column of the record schema is a required or an optional
(`Option`-typed) field. -/
inductive FieldTy where
  | required
  | optional
deriving DecidableEq, Repr

/-- A field value at the serializer boundary: a text value, or absent
(serde `None`). -/
inductive FieldVal where
  | text (s : Text)
  | absent
deriving DecidableEq, Repr

/-- One column of a record schema: field name and kind. -/
structure Col where
  name : Text
  ty : FieldTy
deriving DecidableEq, Repr

/-- A record schema: the ordered named columns of the record type. -/
abbrev Schema := List Col

/-- A record: one field value per schema column, in order. -/
abbrev Record := List FieldVal

/-- Serde-to-csv serialization of one field: `None` is written as the
empty field. -/
def serializeField : FieldVal → Text
  | .text s => s
  | .absent => []

/-- Csv-to-serde deserialization of one field: an empty field read into
an optional column is `None`; everything else is the text itself. -/
def decodeField : FieldTy → Text → FieldVal
  | .required, t => .text t
  | .optional, t => if t = [] then .absent else .text t

/-- `QuoteStyle::Necessary`: a field is quoted when it contains the
delimiter, a quote character, or a line terminator. -/
def needsQuote (d : Char) (s : Text) : Bool :=
  s.any (fun c => c = d ∨ c = '"' ∨ c = '\n' ∨ c = '\r')

/-- Double every quote character (the CSV escaping inside a quoted
field). -/
def escQuotes (s : Text) : Text :=
  s.flatMap (fun c => if c = '"' then ['"', '"'] else [c])

/-- Encode one field for writing: under `QuoteStyle::Necessary`
(`quote = true` in `DelimFile::write`) a field needing quotes is wrapped
in quotes with inner quotes doubled; under `QuoteStyle::Never`
(`quote = false`) the field text is emitted verbatim. -/
def encodeField (d : Char) (quote : Bool) (s : Text) : Text :=
  if quote ∧ needsQuote d s then '"' :: escQuotes s ++ ['"'] else s

/-- The encoded fields of one row joined by the delimiter. -/
def joinFields (d : Char) (quote : Bool) : List Text → Text
  | [] => []
  | [f] => encodeField d quote f
  | f :: rest => encodeField d quote f ++ d :: joinFields d quote rest

/-- One written row: joined fields plus the `\n` record terminator.
Under `QuoteStyle::Necessary` the csv writer documents that "quotes are
also necessary when writing an empty record (which is indistinguishable
from a record with one empty field)", so a record whose single field is
empty is written as `""`; under `QuoteStyle::Never` no quotes are ever
written and such a record is a bare terminator. -/
def rowText (d : Char) (quote : Bool) (fs : List Text) : Text :=
  (if quote ∧ fs = [[]] then ['"', '"'] else joinFields d quote fs) ++ ['\n']

/-- The bytes produced by `DelimFile::write` before path encoding.
Modelled from the csv crate's documented serializer behavior under
`has_headers(true)`: the header row (the schema's field names, in order)
is written when the first record is serialized — so writing zero records
produces an empty file — and each record then yields one row of its
serialized fields. -/
def writeContent (sch : Schema) (recs : List Record) (d : Char) (quote : Bool) : Text :=
  match recs with
  | [] => []
  | _ =>
    rowText d quote (sch.map Col.name) ++
      recs.flatMap (fun r => rowText d quote (r.map serializeField))

/-! ### CSV parsing (the csv crate's reader, as described by the spec) -/

/-- Parse the body of a quoted field: a doubled quote is a literal quote,
a single quote closes the field; returns the field text and the input
after the closing quote. -/
def parseQuoted : List Char → Text × List Char
  | [] => ([], [])
  | [c] =>
    if c = '"' then ([], []) else ([c], [])
  | c :: c2 :: rest =>
    if c = '"' then
      if c2 = '"' then
        ('"' :: (parseQuoted rest).1, (parseQuoted rest).2)
      else ([], c2 :: rest)
    else
      (c :: (parseQuoted (c2 :: rest)).1, (parseQuoted (c2 :: rest)).2)

/-- An unquoted field continues while the character is neither the
delimiter nor the record terminator. -/
def notSep (d : Char) (x : Char) : Bool := ¬(x = d ∨ x = '\n')

/-- Parse one field: a field starting with a quote is parsed quoted (when
quoting is enabled); otherwise the field runs to the next delimiter or
record terminator. -/
def parseField (d : Char) (quote : Bool) (xs : List Char) : Text × List Char :=
  match xs with
  | [] => ([], [])
  | c :: rest =>
    if c = '"' ∧ quote = true then parseQuoted rest
    else ((c :: rest).takeWhile (notSep d), (c :: rest).dropWhile (notSep d))

/-- Parse the fields of one row (fuel bounds the number of fields);
returns the fields and the input after the row's terminator. -/
def parseRowFuel (d : Char) (quote : Bool) : Nat → List Char → List Text × List Char
  | fuel, xs =>
    match parseField d quote xs with
    | (f, []) => ([f], [])
    | (f, c :: r) =>
      if c = '\n' then ([f], r)
      else
        match fuel with
        | 0 => ([f], r)
        | fuel' + 1 =>
          (f :: (parseRowFuel d quote fuel' r).1, (parseRowFuel d quote fuel' r).2)

/-- Parse all rows (fuel bounds the number of rows); a row that is
completely empty (a bare record terminator) yields no record, matching
the csv crate's empty-row skipping. -/
def parseRecordsFuel (d : Char) (quote : Bool) : Nat → List Char → List (List Text)
  | _, [] => []
  | 0, _ => []
  | fuel + 1, c :: xs =>
    if c = '\n' then parseRecordsFuel d quote fuel xs
    else
      let pr := parseRowFuel d quote (c :: xs).length (c :: xs)
      pr.1 :: parseRecordsFuel d quote fuel pr.2

/-- Parse a whole file into rows of fields. -/
def parseRecords (d : Char) (quote : Bool) (content : Text) : List (List Text) :=
  parseRecordsFuel d quote content.length content

/-- First index of a name in the header row. -/
def idxOfName (header : List Text) (nm : Text) : Option Nat :=
  match header with
  | [] => none
  | h :: rest => if h = nm then some 0 else (idxOfName rest nm).map (· + 1)

/-- Compose one record from a data row: columns are matched to schema
fields by header name (not position); a column count mismatch, a header
column naming no schema field, or a schema field missing from the header
is a conversion failure. -/
def rowToRecord (sch : Schema) (header : List Text) (row : List Text) : Option Record :=
  if row.length = header.length ∧ ∀ h ∈ header, ∃ c ∈ sch, c.name = h then
    sch.mapM (fun col =>
      (idxOfName header col.name).map (fun i => decodeField col.ty (row.getD i [])))
  else none

/-- Whether one field value of a record survives the
serialize-write-read-deserialize cycle in its column kind: required
columns hold text, and optional columns are absent or hold non-empty
text (the csv encoding writes `None` and `Some ""` identically, so a
present-but-empty optional value cannot survive). -/
def fieldRT : FieldTy → FieldVal → Bool
  | .required, .text _ => true
  | .required, .absent => false
  | .optional, .text s => decide (s ≠ [])
  | .optional, .absent => true

/-- A record conforms to the schema for a lossless round-trip: one field
per column, each field surviving in its column kind. -/
def recOk (sch : Schema) (r : Record) : Prop :=
  r.length = sch.length ∧
    ∀ i, i < sch.length →
      fieldRT (sch.getD i ⟨[], .required⟩).ty (r.getD i (.text [])) = true

/-- `recOk` is decidable, so concrete record sequences can be checked by
evaluation. -/
instance (sch : Schema) (r : Record) : Decidable (recOk sch r) :=
  inferInstanceAs (Decidable (r.length = sch.length ∧
    ∀ i, i < sch.length →
      fieldRT (sch.getD i ⟨[], .required⟩).ty (r.getD i (.text [])) = true))

/-- Decode the bytes of a delimited file into records: the first row is
the header; every later row must convert, and a single failing row fails
the whole read with a conversion error (`result.map_err(FgError::ConversionError)?`
in the source loop). -/
def readDelim (sch : Schema) (d : Char) (quote : Bool) (content : Text) :
    Except FgError (List Record) :=
  match parseRecords d quote content with
  | [] => .ok []
  | header :: rows =>
    match rows.mapM (rowToRecord sch header) with
    | none => .error .conversionError
    | some recs => .ok recs

/-- `DelimFile::write`: write the delimited bytes through the writer
chain that `Io::new_writer` selects for the path. -/
def DelimFile.write (fs : FS) (p : String) (sch : Schema) (recs : List Record)
    (d : Char) (quote : Bool) : FS :=
  fun q => if q = p then some (Io.encodeForPath p (writeContent sch recs d quote)) else fs q

/-- `DelimFile::read`: open a reader for the path and decode the
delimited content. -/
def DelimFile.read (fs : FS) (p : String) (sch : Schema) (d : Char) (quote : Bool) :
    Except FgError (List Record) :=
  (Io.new_reader fs p).bind (readDelim sch d quote)

/-- `DelimFile::write_csv`: `write` with a comma and quoting. -/
def DelimFile.write_csv (fs : FS) (p : String) (sch : Schema) (recs : List Record) : FS :=
  DelimFile.write fs p sch recs ',' true

/-- `DelimFile::write_tsv`: `write` with a tab and quoting. -/
def DelimFile.write_tsv (fs : FS) (p : String) (sch : Schema) (recs : List Record) : FS :=
  DelimFile.write fs p sch recs '\t' true

/-- `DelimFile::read_csv`: `read` with a comma and quoting. -/
def DelimFile.read_csv (fs : FS) (p : String) (sch : Schema) : Except FgError (List Record) :=
  DelimFile.read fs p sch ',' true

/-- `DelimFile::read_tsv`: `read` with a tab and quoting. -/
def DelimFile.read_tsv (fs : FS) (p : String) (sch : Schema) : Except FgError (List Record) :=
  DelimFile.read fs p sch '\t' true

/-! ## Finalization on a capacity-limited device

`Io::write_lines` ends in `out.flush().map_err(FgError::IoError)`.  For a
gzip path, `flush` drains the `BufWriter` and the encoder's compressed
body to the file, but the gzip trailer is written only by `GzEncoder`'s
`Drop` implementation (`let _ = self.try_finish();`), which runs after
the function's return value is fixed and discards any error.  The model
below replays that order of events against a device that accepts at most
`cap` bytes: the first component is the `Result` that `write_lines`
returns, the second records whether the trailer write (the finalization
step) succeeded. -/
def Io.write_lines_gz_capped (cap : Nat) (lines : List Text) :
    Except FgError Unit × Bool :=
  let body := GZ_MAGIC ++ linesText lines
  if body.length ≤ cap then
    (.ok (), decide (body.length + 1 ≤ cap))
  else
    (.error .ioError, false)

/-! ## Lemmas: codec and path round-trips -/

theorem gzipDecode_gzipEncode (x : Text) : gzipDecode (gzipEncode x) = .ok x := by
  unfold gzipDecode gzipEncode
  rw [if_pos]
  · rw [List.append_assoc, show (2 : Nat) = GZ_MAGIC.length from rfl, List.drop_left,
      List.dropLast_concat]
  · refine ⟨?_, ?_, ?_⟩
    · rw [List.append_assoc, show (2 : Nat) = GZ_MAGIC.length from rfl, List.take_left]
    · simp [GZ_MAGIC]
    · exact List.getLast?_concat _

theorem zstdDecode_zstdEncode (x : Text) : zstdDecode (zstdEncode x) = .ok x := by
  unfold zstdDecode zstdEncode
  rw [if_pos]
  · rw [List.append_assoc, show (4 : Nat) = ZSTD_MAGIC.length from rfl, List.drop_left,
      List.dropLast_concat]
  · refine ⟨?_, ?_, ?_⟩
    · rw [List.append_assoc, show (4 : Nat) = ZSTD_MAGIC.length from rfl, List.take_left]
    · simp [ZSTD_MAGIC]
    · exact List.getLast?_concat _

theorem decode_encodeForPath (p : String) (x : Text) :
    Io.decodeForPath p (Io.encodeForPath p x) = .ok x := by
  unfold Io.decodeForPath Io.encodeForPath
  by_cases hg : Io.is_gzip_path p
  · simp [hg, gzipDecode_gzipEncode]
  · by_cases hz : Io.is_zstd_path p
    · simp [hg, hz, zstdDecode_zstdEncode]
    · simp [hg, hz]

/-! ## C4: extension classification -/

theorem is_path_with_extension_iff (p : String) (exts : List String) :
    Io.is_path_with_extension p exts = true ↔
      ∃ x, extension? p = some x ∧ x ∈ exts := by
  unfold Io.is_path_with_extension
  cases h : extension? p with
  | none => simp
  | some x => simp [List.elem_iff]

/-- C4: `is_gzip_path`, `is_zstd_path` and `is_fastq_path` are true exactly
when the path's final extension component is an exact member of the fixed
per-category set (gzip: gz, bgz; zstd: zst; fastq: fastq, fq); a path with
no extension or an unrecognized extension is in none of the categories;
the spec's eight concrete examples evaluate as stated. -/
theorem classification_by_extension :
    (∀ p : String, Io.is_gzip_path p = true ↔
        extension? p = some "gz" ∨ extension? p = some "bgz") ∧
    (∀ p : String, Io.is_zstd_path p = true ↔ extension? p = some "zst") ∧
    (∀ p : String, Io.is_fastq_path p = true ↔
        extension? p = some "fastq" ∨ extension? p = some "fq") ∧
    Io.is_gzip_path "x.fq.gz" = true ∧ Io.is_gzip_path "x.fq.bgz" = true ∧
    Io.is_gzip_path "x.fq.tar" = false ∧ Io.is_zstd_path "x.fq.zst" = true ∧
    Io.is_zstd_path "x.fq.gz" = false ∧ Io.is_fastq_path "x.fq" = true ∧
    Io.is_fastq_path "x.fastq" = true ∧ Io.is_fastq_path "x.sam" = false := by
  refine ⟨?_, ?_, ?_, by decide, by decide, by decide, by decide, by decide,
    by decide, by decide, by decide⟩
  · intro p
    rw [Io.is_gzip_path, is_path_with_extension_iff]
    constructor
    · rintro ⟨x, hx, hmem⟩
      simp [GZIP_EXTENSIONS] at hmem
      rcases hmem with rfl | rfl
      · exact Or.inl hx
      · exact Or.inr hx
    · rintro (hx | hx)
      · exact ⟨"gz", hx, by simp [GZIP_EXTENSIONS]⟩
      · exact ⟨"bgz", hx, by simp [GZIP_EXTENSIONS]⟩
  · intro p
    rw [Io.is_zstd_path, is_path_with_extension_iff]
    constructor
    · rintro ⟨x, hx, hmem⟩
      simp [ZSTD_EXTENSIONS] at hmem
      exact hmem ▸ hx
    · intro hx
      exact ⟨"zst", hx, by simp [ZSTD_EXTENSIONS]⟩
  · intro p
    rw [Io.is_fastq_path, is_path_with_extension_iff]
    constructor
    · rintro ⟨x, hx, hmem⟩
      simp [FASTQ_EXTENSIONS] at hmem
      rcases hmem with rfl | rfl
      · exact Or.inl hx
      · exact Or.inr hx
    · rintro (hx | hx)
      · exact ⟨"fastq", hx, by simp [FASTQ_EXTENSIONS]⟩
      · exact ⟨"fq", hx, by simp [FASTQ_EXTENSIONS]⟩

/-! ## C5: compression level honored for gzip, ignored for zstd -/

/-- C5: `Io::new_writer` applies the configured compression level to the
gzip encoder for every gzip-classified path, while for every
zstd-classified path the encoder is built with the fixed default
parameter (literal level 0), so two configurations differing only in
compression level construct identical zstd writer chains. -/
theorem writer_chain_levels (c₁ c₂ bs : Nat) (p : String) :
    (Io.is_gzip_path p = true →
      Io.new_writer_chain (Io.new c₁ bs) p = .gzip c₁ bs) ∧
    (Io.is_zstd_path p = true →
      Io.new_writer_chain (Io.new c₁ bs) p = .zstd 0 true bs ∧
      Io.new_writer_chain (Io.new c₁ bs) p = Io.new_writer_chain (Io.new c₂ bs) p) := by
  constructor
  · intro hg
    simp [Io.new_writer_chain, Io.new, hg]
  · intro hz
    have hg : Io.is_gzip_path p = false := by
      cases h : Io.is_gzip_path p
      · rfl
      · exfalso
        have hx := (classification_by_extension.1 p).mp h
        have hy := (classification_by_extension.2.1 p).mp hz
        rcases hx with hx | hx <;> rw [hx] at hy <;> exact Option.some.inj hy |> fun he => by
          simp at he
    simp [Io.new_writer_chain, Io.new, hg, hz]

/-! ## Lemmas: line splitting -/

theorem splitNl_ne_nil (cs : List Char) : splitNl cs ≠ [] := by
  induction cs with
  | nil => simp [splitNl]
  | cons c cs ih =>
    simp only [splitNl]
    split
    · simp
    · cases h : splitNl cs with
      | nil => simp
      | cons l ls => simp

theorem splitNl_append_nl (s : Text) (cs : List Char) (h : '\n' ∉ s) :
    splitNl (s ++ '\n' :: cs) = s :: splitNl cs := by
  induction s with
  | nil => simp [splitNl]
  | cons a s ih =>
    have ha : a ≠ '\n' := fun hc => h (hc ▸ List.mem_cons_self a s)
    have hs : '\n' ∉ s := fun hc => h (List.mem_cons_of_mem a hc)
    simp only [List.cons_append, splitNl, if_neg ha, List.append_eq]
    rw [ih hs]

theorem stripCr_of_not_cr (l : Text) (h : l.getLast? ≠ some '\r') : stripCr l = l := by
  unfold stripCr
  rw [if_neg h]

theorem stripCr_concat_cr (l : Text) : stripCr (l ++ ['\r']) = l := by
  unfold stripCr
  rw [if_pos (List.getLast?_concat l), List.dropLast_concat]

theorem rustReadLines_cons (l : Text) (rest : Text) (h : '\n' ∉ l) :
    rustReadLines (l ++ '\n' :: rest) = stripCr l :: rustReadLines rest := by
  unfold rustReadLines
  rw [splitNl_append_nl l rest h]
  have hne := splitNl_ne_nil rest
  rw [List.dropLast_cons_of_ne_nil hne, List.map_cons]
  cases hsp : splitNl rest with
  | nil => exact absurd hsp hne
  | cons x xs =>
    simp only [List.getLast?_cons_cons, List.cons_append]

theorem rustReadLines_linesText (lines : List Text)
    (h : ∀ l ∈ lines, '\n' ∉ l ∧ l.getLast? ≠ some '\r') :
    rustReadLines (linesText lines) = lines := by
  induction lines with
  | nil => rfl
  | cons l ls ih =>
    have hl := h l (List.mem_cons_self l ls)
    have hls : ∀ x ∈ ls, '\n' ∉ x ∧ x.getLast? ≠ some '\r' :=
      fun x hx => h x (List.mem_cons_of_mem l hx)
    unfold linesText
    rw [List.flatMap_cons, List.append_assoc, List.singleton_append,
      rustReadLines_cons l _ hl.1, stripCr_of_not_cr l hl.2]
    exact congrArg (l :: ·) (ih hls)

/-! ## C1: write_lines / read_lines round-trip -/

/-- C1 (amended): for every path — plain, `.gz`-suffixed or
`.zst`-suffixed — and every finite sequence of lines in which no line
contains a line feed and no line ends with a carriage return,
`write_lines` followed by `read_lines` on the same path returns exactly
the original sequence. -/
theorem write_read_lines_roundtrip (fs : FS) (p : String) (lines : List Text)
    (h : ∀ l ∈ lines, '\n' ∉ l ∧ l.getLast? ≠ some '\r') :
    Io.read_lines (Io.write_lines fs p lines) p = .ok lines := by
  unfold Io.read_lines Io.new_reader Io.write_lines
  have hsel : (if p = p then some (Io.encodeForPath p (linesText lines)) else fs p) =
      some (Io.encodeForPath p (linesText lines)) := if_pos rfl
  rw [hsel]
  show Except.map rustReadLines (Io.decodeForPath p (Io.encodeForPath p (linesText lines))) =
    Except.ok lines
  rw [decode_encodeForPath p (linesText lines)]
  simp [Except.map, rustReadLines_linesText lines h]

/-- Witness for C1: a concrete round-trip through a `.gz` path. -/
theorem write_read_lines_roundtrip_witness :
    Io.read_lines (Io.write_lines (fun _ => none) "f.gz" [['h', 'i'], []]) "f.gz" =
      .ok [['h', 'i'], []] :=
  write_read_lines_roundtrip (fun _ => none) "f.gz" [['h', 'i'], []] (by decide)

/-- Counterexample to C1 as stated: the line `a\r` does not survive the
round-trip on a plain path — its trailing carriage return is stripped
together with the written line feed. -/
theorem write_read_lines_cr_counterexample :
    Io.read_lines (Io.write_lines (fun _ => none) "f.txt" [['a', '\r']]) "f.txt" =
        .ok [['a']] ∧
      Io.read_lines (Io.write_lines (fun _ => none) "f.txt" [['a', '\r']]) "f.txt" ≠
        .ok [['a', '\r']] := by
  constructor
  · decide
  · decide

/-! ## C10: line-terminator handling of read_lines -/

/-- C10: `read_lines` treats a lone line feed and a
carriage-return-plus-line-feed pair alike as line terminators and strips
them, so CRLF content yields lines without the trailing carriage return;
consequently the concrete line `a\r` is not returned unchanged by
`write_lines` followed by `read_lines`. -/
theorem read_lines_terminators :
    (∀ s : Text, '\n' ∉ s → '\r' ∉ s →
      rustReadLines (s ++ ['\r', '\n']) = [s] ∧ rustReadLines (s ++ ['\n']) = [s]) ∧
    ∃ l : Text, Io.read_lines (Io.write_lines (fun _ => none) "crlf.txt" [l]) "crlf.txt" ≠
      .ok [l] := by
  constructor
  · intro s hn hr
    have hs : s.getLast? ≠ some '\r' := by
      intro hc
      obtain ⟨hne, heq⟩ := List.mem_getLast?_eq_getLast hc
      exact hr (heq ▸ List.getLast_mem hne)
    constructor
    · have : s ++ ['\r', '\n'] = (s ++ ['\r']) ++ '\n' :: [] := by simp
      rw [this, rustReadLines_cons _ _ (by simp [hn]), stripCr_concat_cr]
      rfl
    · have : s ++ ['\n'] = s ++ '\n' :: [] := rfl
      rw [this, rustReadLines_cons _ _ hn, stripCr_of_not_cr _ hs]
      rfl
  · exact ⟨['a', '\r'], by decide⟩

/-- Witness for C10: the terminator-stripping clauses evaluated on the
concrete content `ab\r\n` and `ab\n`. -/
theorem read_lines_terminators_witness :
    rustReadLines (['a', 'b'] ++ ['\r', '\n']) = [['a', 'b']] ∧
      rustReadLines (['a', 'b'] ++ ['\n']) = [['a', 'b']] :=
  (read_lines_terminators.1 ['a', 'b'] (by decide) (by decide))

/-! ## C6: quoting policy of DelimFile::write -/

/-- C6: with quoting enabled (`QuoteStyle::Necessary`), every field value
containing the delimiter, a quote character, or a line terminator is
wrapped in quotes with internal quotes doubled; with quoting disabled
(`QuoteStyle::Never`), the field text is always written verbatim —
in particular a field containing the delimiter is written unquoted. -/
theorem quoting_policy (d : Char) (s : Text) :
    (needsQuote d s = true → encodeField d true s = '"' :: escQuotes s ++ ['"']) ∧
    encodeField d false s = s := by
  constructor
  · intro h
    unfold encodeField
    rw [if_pos ⟨rfl, h⟩]
  · unfold encodeField
    rw [if_neg]
    rintro ⟨hc, -⟩
    cases hc

/-- Witness for C6: the field `a,b` is quoted and escaped under
`Necessary` and written verbatim under `Never`. -/
theorem quoting_policy_witness :
    encodeField ',' true ['a', ',', 'b'] = '"' :: escQuotes ['a', ',', 'b'] ++ ['"'] ∧
      encodeField ',' false ['a', ',', 'b'] = ['a', ',', 'b'] :=
  ⟨(quoting_policy ',' ['a', ',', 'b']).1 (by decide), (quoting_policy ',' ['a', ',', 'b']).2⟩

/-! ## Lemmas: CSV field and row parsing inverts writing -/

theorem takeWhile_append_all {p : Char → Bool} (l r : List Char)
    (h : ∀ c ∈ l, p c = true) :
    (l ++ r).takeWhile p = l ++ r.takeWhile p := by
  induction l with
  | nil => simp
  | cons a l ih =>
    have ha := h a (List.mem_cons_self a l)
    simp only [List.cons_append, List.takeWhile_cons, ha, if_true]
    rw [ih (fun c hc => h c (List.mem_cons_of_mem a hc))]

theorem dropWhile_append_all {p : Char → Bool} (l r : List Char)
    (h : ∀ c ∈ l, p c = true) :
    (l ++ r).dropWhile p = r.dropWhile p := by
  induction l with
  | nil => simp
  | cons a l ih =>
    have ha := h a (List.mem_cons_self a l)
    simp only [List.cons_append, List.dropWhile_cons, ha, if_true]
    exact ih (fun c hc => h c (List.mem_cons_of_mem a hc))

theorem parseQuoted_escQuotes (s : Text) (rest : List Char)
    (h : rest.head? ≠ some '"') :
    parseQuoted (escQuotes s ++ '"' :: rest) = (s, rest) := by
  induction s with
  | nil =>
    simp only [escQuotes, List.flatMap_nil, List.nil_append]
    cases rest with
    | nil => rfl
    | cons r rs =>
      have hr : r ≠ '"' := fun hc => h (by rw [hc]; rfl)
      simp only [parseQuoted, if_pos rfl, if_neg hr, if_true]
  | cons c s ih =>
    by_cases hc : c = '"'
    · subst hc
      have hesc : escQuotes ('"' :: s) ++ '"' :: rest =
          '"' :: '"' :: (escQuotes s ++ '"' :: rest) := by
        simp [escQuotes]
      rw [hesc]
      simp only [parseQuoted, if_pos rfl, if_true]
      rw [ih]
    · have hesc : escQuotes (c :: s) ++ '"' :: rest =
          c :: (escQuotes s ++ '"' :: rest) := by
        simp [escQuotes, hc]
      rw [hesc]
      have hne : escQuotes s ++ '"' :: rest ≠ [] := by simp
      obtain ⟨y, ys, hys⟩ := List.exists_cons_of_ne_nil hne
      rw [hys]
      simp only [parseQuoted, if_neg hc]
      rw [← hys, ih]

theorem notSep_true (d x : Char) (h1 : x ≠ d) (h2 : x ≠ '\n') : notSep d x = true := by
  simp [notSep, h1, h2]

theorem notSep_false_left (d : Char) : notSep d d = false := by
  simp [notSep]

theorem notSep_false_nl (d : Char) : notSep d '\n' = false := by
  simp [notSep]

theorem needsQuote_false_spec (d : Char) (f : Text) (hq : needsQuote d f = false) :
    ∀ c ∈ f, c ≠ d ∧ c ≠ '"' ∧ c ≠ '\n' ∧ c ≠ '\r' := by
  intro c hc
  unfold needsQuote at hq
  rw [List.any_eq_false] at hq
  have := hq c hc
  simp at this
  exact this

theorem parseField_quoted (d : Char) (f : Text) (rest : List Char)
    (hq : needsQuote d f = true) (h : rest.head? ≠ some '"') :
    parseField d true (encodeField d true f ++ rest) = (f, rest) := by
  unfold encodeField
  rw [if_pos ⟨rfl, hq⟩]
  rw [List.cons_append, List.cons_append, List.append_assoc, List.singleton_append]
  simp only [parseField, if_pos (⟨rfl, rfl⟩ : ('"' : Char) = '"' ∧ true = true)]
  exact parseQuoted_escQuotes f rest h

theorem parseField_unquoted (d : Char) (q : Bool) (f : Text) (rest : List Char)
    (hq : needsQuote d f = false) (hd : d ≠ '"')
    (hrest : rest = [] ∨ ∃ r rs, rest = r :: rs ∧ (r = d ∨ r = '\n')) :
    parseField d q (encodeField d q f ++ rest) = (f, rest) := by
  have henc : encodeField d q f = f := by
    unfold encodeField
    rw [if_neg]
    rintro ⟨-, hc⟩
    rw [hq] at hc
    cases hc
  rw [henc]
  have hchars := needsQuote_false_spec d f hq
  have hrest_take : rest.takeWhile (notSep d) = [] := by
    rcases hrest with rfl | ⟨r, rs, rfl, hr⟩
    · rfl
    · rcases hr with rfl | rfl
      · simp [List.takeWhile_cons, notSep_false_left]
      · simp [List.takeWhile_cons, notSep_false_nl]
  have hrest_drop : rest.dropWhile (notSep d) = rest := by
    rcases hrest with rfl | ⟨r, rs, rfl, hr⟩
    · rfl
    · rcases hr with rfl | rfl
      · simp [List.dropWhile_cons, notSep_false_left]
      · simp [List.dropWhile_cons, notSep_false_nl]
  cases f with
  | nil =>
    rcases hrest with rfl | ⟨r, rs, rfl, hr⟩
    · rfl
    · have hr' : r ≠ '"' := by
        rcases hr with rfl | rfl
        · exact hd
        · decide
      simp only [List.nil_append, parseField]
      rw [if_neg (by rintro ⟨hc, -⟩; exact hr' hc)]
      rw [show ((r :: rs).takeWhile (notSep d)) = ([] : Text) from by
            rcases hr with rfl | rfl
            · simp [List.takeWhile_cons, notSep_false_left]
            · simp [List.takeWhile_cons, notSep_false_nl],
          show ((r :: rs).dropWhile (notSep d)) = r :: rs from by
            rcases hr with rfl | rfl
            · simp [List.dropWhile_cons, notSep_false_left]
            · simp [List.dropWhile_cons, notSep_false_nl]]
  | cons a f' =>
    have ha := hchars a (List.mem_cons_self a f')
    have hshape : (a :: f') ++ rest = a :: (f' ++ rest) := rfl
    rw [hshape]
    simp only [parseField]
    rw [if_neg (by rintro ⟨hc, -⟩; exact ha.2.1 hc)]
    rw [show a :: (f' ++ rest) = (a :: f') ++ rest from rfl]
    rw [takeWhile_append_all _ _ (fun c hc => notSep_true d c (hchars c hc).1 (hchars c hc).2.2.1),
        dropWhile_append_all _ _ (fun c hc => notSep_true d c (hchars c hc).1 (hchars c hc).2.2.1)]
    rw [hrest_take, hrest_drop, List.append_nil]

theorem parseField_encode (d : Char) (f : Text) (rest : List Char)
    (hd : d ≠ '"')
    (hrest : rest = [] ∨ ∃ r rs, rest = r :: rs ∧ (r = d ∨ r = '\n')) :
    parseField d true (encodeField d true f ++ rest) = (f, rest) := by
  cases hq : needsQuote d f with
  | false => exact parseField_unquoted d true f rest hq hd hrest
  | true =>
    apply parseField_quoted d f rest hq
    rcases hrest with rfl | ⟨r, rs, rfl, hr⟩
    · simp
    · simp only [List.head?_cons]
      intro hc
      rcases hr with rfl | rfl
      · exact hd (Option.some.inj hc)
      · exact absurd (Option.some.inj hc) (by decide)

theorem parseRowFuel_inv (d : Char) (hd : d ≠ '"') (hdn : d ≠ '\n') :
    ∀ (fs : List Text) (fuel : Nat) (rest : List Char),
      fs ≠ [] → fs.length ≤ fuel + 1 →
      parseRowFuel d true fuel (joinFields d true fs ++ '\n' :: rest) = (fs, rest) := by
  intro fs
  induction fs with
  | nil => intro fuel rest h _; exact absurd rfl h
  | cons f fs ih =>
    intro fuel rest _ hlen
    cases fs with
    | nil =>
      have hpf : parseField d true (encodeField d true f ++ '\n' :: rest) = (f, '\n' :: rest) :=
        parseField_encode d f _ hd (Or.inr ⟨'\n', rest, rfl, Or.inr rfl⟩)
      show parseRowFuel d true fuel (encodeField d true f ++ '\n' :: rest) = ([f], rest)
      unfold parseRowFuel
      rw [hpf]
      simp
    | cons f2 fs2 =>
      have hsh : joinFields d true (f :: f2 :: fs2) ++ '\n' :: rest =
          encodeField d true f ++
            (d :: (joinFields d true (f2 :: fs2) ++ '\n' :: rest)) := by
        show (encodeField d true f ++ (d :: joinFields d true (f2 :: fs2))) ++ '\n' :: rest = _
        rw [List.append_assoc, List.cons_append]
      have hpf : parseField d true
          (encodeField d true f ++ (d :: (joinFields d true (f2 :: fs2) ++ '\n' :: rest))) =
          (f, d :: (joinFields d true (f2 :: fs2) ++ '\n' :: rest)) :=
        parseField_encode d f _ hd (Or.inr ⟨d, _, rfl, Or.inl rfl⟩)
      rw [hsh]
      cases fuel with
      | zero => simp at hlen
      | succ fuel' =>
        unfold parseRowFuel
        rw [hpf]
        have hrec := ih fuel' rest (by simp) (by simp at hlen ⊢; omega)
        simp only [if_neg hdn]
        rw [hrec]

theorem encodeField_ne_nil (d : Char) (f : Text) (h : f ≠ []) :
    encodeField d true f ≠ [] := by
  unfold encodeField
  split
  · simp
  · exact h

theorem encodeField_head_ne_nl (d : Char) (f : Text) (c : Char) (cs : List Char)
    (h : encodeField d true f = c :: cs) : c ≠ '\n' := by
  unfold encodeField at h
  by_cases hq : needsQuote d f
  · rw [if_pos ⟨rfl, hq⟩] at h
    have : c = '"' := by
      rw [List.cons_append] at h
      exact (List.cons.inj h).1.symm
    rw [this]
    decide
  · rw [if_neg (by rintro ⟨-, hc⟩; exact hq hc)] at h
    have hne : needsQuote d f = false := by
      cases hnq : needsQuote d f
      · rfl
      · exact absurd hnq hq
    have := needsQuote_false_spec d f hne c (h ▸ List.mem_cons_self c cs)
    exact this.2.2.1

theorem joinFields_ne_nil (d : Char) (fs : List Text)
    (h1 : fs ≠ []) (h2 : fs ≠ [[]]) : joinFields d true fs ≠ [] := by
  cases fs with
  | nil => exact absurd rfl h1
  | cons f fs' =>
    cases fs' with
    | nil =>
      have hf : f ≠ [] := by
        intro hc
        exact h2 (by rw [hc])
      exact encodeField_ne_nil d f hf
    | cons f2 fs2 =>
      show encodeField d true f ++ (d :: joinFields d true (f2 :: fs2)) ≠ []
      simp

theorem joinFields_head_ne_nl (d : Char) (hdn : d ≠ '\n') (fs : List Text)
    (c : Char) (cs : List Char) (h : joinFields d true fs = c :: cs) : c ≠ '\n' := by
  cases fs with
  | nil => cases h
  | cons f fs' =>
    cases fs' with
    | nil => exact encodeField_head_ne_nl d f c cs h
    | cons f2 fs2 =>
      have hsh : encodeField d true f ++ (d :: joinFields d true (f2 :: fs2)) = c :: cs := h
      cases henc : encodeField d true f with
      | nil =>
        rw [henc, List.nil_append] at hsh
        rw [← (List.cons.inj hsh).1]
        exact hdn
      | cons a as =>
        rw [henc, List.cons_append] at hsh
        rw [← (List.cons.inj hsh).1]
        exact encodeField_head_ne_nl d f a as henc

theorem length_le_joinFields (d : Char) (fs : List Text) :
    fs.length ≤ (joinFields d true fs).length + 1 := by
  induction fs with
  | nil => simp
  | cons f fs ih =>
    cases fs with
    | nil => simp
    | cons f2 fs2 =>
      show (f :: f2 :: fs2).length ≤
        (encodeField d true f ++ (d :: joinFields d true (f2 :: fs2))).length + 1
      simp only [List.length_cons, List.length_append] at ih ⊢
      omega

theorem parseRowFuel_empty_quoted (d : Char) (fuel : Nat) (rest : List Char) :
    parseRowFuel d true fuel ('"' :: '"' :: '\n' :: rest) = ([[]], rest) := by
  unfold parseRowFuel parseField parseQuoted
  simp

theorem parseRecordsFuel_inv (d : Char) (hd : d ≠ '"') (hdn : d ≠ '\n') :
    ∀ (rows : List (List Text)) (fuel : Nat),
      (∀ r ∈ rows, r ≠ []) →
      (rows.flatMap (rowText d true)).length ≤ fuel →
      parseRecordsFuel d true fuel (rows.flatMap (rowText d true)) = rows := by
  intro rows
  induction rows with
  | nil =>
    intro fuel _ _
    rw [List.flatMap_nil]
    cases fuel <;> rfl
  | cons r rows ih =>
    intro fuel hok hlen
    have hr : r ≠ [] := hok r (List.mem_cons_self r rows)
    by_cases hre : r = [[]]
    · subst hre
      have hsh : rowText d true [[]] ++ rows.flatMap (rowText d true) =
          '"' :: '"' :: '\n' :: rows.flatMap (rowText d true) := by
        unfold rowText
        rw [if_pos ⟨rfl, rfl⟩]
        rfl
      have hlen' : ('"' :: '"' :: '\n' :: rows.flatMap (rowText d true)).length ≤ fuel := by
        rw [List.flatMap_cons, hsh] at hlen
        exact hlen
      rw [List.flatMap_cons, hsh]
      cases fuel with
      | zero => simp only [List.length_cons] at hlen'; omega
      | succ fuel'' =>
        unfold parseRecordsFuel
        rw [if_neg (by decide : ¬('"' : Char) = '\n')]
        rw [parseRowFuel_empty_quoted]
        have hrest : (rows.flatMap (rowText d true)).length ≤ fuel'' := by
          simp only [List.length_cons] at hlen'
          omega
        show [[]] :: parseRecordsFuel d true fuel'' (rows.flatMap (rowText d true)) =
          [[]] :: rows
        rw [ih fuel'' (fun x hx => hok x (List.mem_cons_of_mem _ hx)) hrest]
    · have hjne : joinFields d true r ≠ [] := joinFields_ne_nil d r hr hre
      obtain ⟨c, js, hjs⟩ := List.exists_cons_of_ne_nil hjne
      have hcnl : c ≠ '\n' := joinFields_head_ne_nl d hdn r c js hjs
      have hsh : rowText d true r ++ rows.flatMap (rowText d true) =
          joinFields d true r ++ '\n' :: rows.flatMap (rowText d true) := by
        unfold rowText
        rw [if_neg (by rintro ⟨-, hc⟩; exact hre hc)]
        rw [List.append_assoc, List.singleton_append]
      have hlen' : (c :: (js ++ '\n' :: rows.flatMap (rowText d true))).length ≤ fuel := by
        rw [List.flatMap_cons, hsh, hjs, List.cons_append] at hlen
        exact hlen
      rw [List.flatMap_cons, hsh, hjs, List.cons_append]
      cases fuel with
      | zero => simp only [List.length_cons] at hlen'; omega
      | succ fuel'' =>
        unfold parseRecordsFuel
        rw [if_neg hcnl]
        have hrow : parseRowFuel d true (c :: (js ++ '\n' :: rows.flatMap (rowText d true))).length
            (c :: (js ++ '\n' :: rows.flatMap (rowText d true))) =
            (r, rows.flatMap (rowText d true)) := by
          have := parseRowFuel_inv d hd hdn r
            (c :: (js ++ '\n' :: rows.flatMap (rowText d true))).length
            (rows.flatMap (rowText d true)) hr ?_
          · rw [hjs, List.cons_append] at this
            exact this
          · have hb := length_le_joinFields d r
            rw [hjs] at hb
            simp only [List.length_cons, List.length_append] at hb ⊢
            omega
        rw [hrow]
        have hrest : (rows.flatMap (rowText d true)).length ≤ fuel'' := by
          simp only [List.length_cons, List.length_append] at hlen'
          omega
        show r :: parseRecordsFuel d true fuel'' (rows.flatMap (rowText d true)) = r :: rows
        rw [ih fuel'' (fun x hx => hok x (List.mem_cons_of_mem r hx)) hrest]

/-! ## Lemmas: record composition by header name -/

theorem idxOfName_get (names : List Text) (hnd : names.Nodup) :
    ∀ (i : Nat) (hi : i < names.length),
      idxOfName names (names.get ⟨i, hi⟩) = some i := by
  induction names with
  | nil => intro i hi; simp at hi
  | cons n ns ih =>
    intro i hi
    cases i with
    | zero => simp [idxOfName]
    | succ j =>
      have hj : j < ns.length := by simpa using hi
      have hmem : ns.get ⟨j, hj⟩ ∈ ns := List.get_mem ns j hj
      have hne : n ≠ ns.get ⟨j, hj⟩ := by
        intro hc
        exact (List.nodup_cons.mp hnd).1 (hc ▸ hmem)
      rw [List.get_cons_succ]
      unfold idxOfName
      rw [if_neg hne, ih (List.nodup_cons.mp hnd).2 j hj]
      rfl

theorem mapM_option_ok {α β : Type} (F : α → Option β) :
    ∀ (l : List α) (res : List β), l.length = res.length →
      (∀ (i : Nat) (h1 : i < l.length) (h2 : i < res.length),
        F (l.get ⟨i, h1⟩) = some (res.get ⟨i, h2⟩)) →
      l.mapM F = some res := by
  intro l
  induction l with
  | nil =>
    intro res hlen _
    cases res with
    | nil => rfl
    | cons b res' => simp at hlen
  | cons a l ih =>
    intro res hlen hF
    cases res with
    | nil => simp at hlen
    | cons b res' =>
      have h0 : F a = some b := by
        have := hF 0 (by simp) (by simp)
        simpa using this
      have hrest : l.mapM F = some res' := by
        apply ih res' (by simpa using hlen)
        intro i h1 h2
        have := hF (i + 1) (by simpa using h1) (by simpa using h2)
        rw [List.get_cons_succ, List.get_cons_succ] at this
        exact this
      rw [List.mapM_cons, h0, hrest]
      rfl

theorem rowToRecord_inv (sch : Schema) (r : Record)
    (hnd : (sch.map Col.name).Nodup)
    (hlen : r.length = sch.length)
    (hok : ∀ i, i < sch.length →
      fieldRT (sch.getD i ⟨[], .required⟩).ty (r.getD i (.text [])) = true) :
    rowToRecord sch (sch.map Col.name) (r.map serializeField) = some r := by
  unfold rowToRecord
  rw [if_pos]
  swap
  · constructor
    · simp [hlen]
    · intro h hh
      obtain ⟨c, hc, rfl⟩ := List.mem_map.mp hh
      exact ⟨c, hc, rfl⟩
  apply mapM_option_ok _ sch r hlen.symm
  intro i h1 h2
  have hmaplen : i < (sch.map Col.name).length := by simpa using h1
  have hname : (sch.map Col.name).get ⟨i, hmaplen⟩ = (sch.get ⟨i, h1⟩).name := by
    simp [List.get_map]
  have hidx := idxOfName_get (sch.map Col.name) hnd i hmaplen
  rw [hname] at hidx
  rw [hidx]
  have hget : (r.map serializeField).getD i [] = serializeField (r.get ⟨i, h2⟩) := by
    rw [List.getD_eq_get _ _ (by simpa using h2)]
    simp [List.get_map]
  rw [Option.map_some', hget]
  have hf := hok i h1
  rw [List.getD_eq_get _ _ h2, List.getD_eq_get _ _ h1] at hf
  cases hv : r.get ⟨i, h2⟩ with
  | text s =>
    cases hty : (sch.get ⟨i, h1⟩).ty with
    | required => simp [decodeField, serializeField, hty]
    | optional =>
      rw [hv, hty] at hf
      simp only [fieldRT, decide_eq_true_eq] at hf
      simp [decodeField, serializeField, hty, hf]
  | absent =>
    cases hty : (sch.get ⟨i, h1⟩).ty with
    | required =>
      rw [hv, hty] at hf
      simp [fieldRT] at hf
    | optional => simp [decodeField, serializeField, hty]

theorem mapM_rowToRecord (sch : Schema) (names : List Text) (recs : List Record)
    (h : ∀ r ∈ recs, rowToRecord sch names (r.map serializeField) = some r) :
    (recs.map (fun r => r.map serializeField)).mapM (rowToRecord sch names) = some recs := by
  induction recs with
  | nil => rfl
  | cons r rs ih =>
    rw [List.map_cons, List.mapM_cons, h r (List.mem_cons_self r rs),
      ih (fun x hx => h x (List.mem_cons_of_mem r hx))]
    rfl

theorem readDelim_writeContent (sch : Schema) (recs : List Record) (d : Char)
    (hd : d ≠ '"') (hdn : d ≠ '\n')
    (hsch : sch ≠ [])
    (hnd : (sch.map Col.name).Nodup)
    (hrec : ∀ r ∈ recs, recOk sch r) :
    readDelim sch d true (writeContent sch recs d true) = .ok recs := by
  cases recs with
  | nil => rfl
  | cons r0 recs' =>
    have hrows : writeContent sch (r0 :: recs') d true =
        ((sch.map Col.name) :: (r0 :: recs').map (fun r => r.map serializeField)).flatMap
          (rowText d true) := by
      show rowText d true (sch.map Col.name) ++
          (r0 :: recs').flatMap (fun r => rowText d true (r.map serializeField)) = _
      simp [List.flatMap_cons, List.flatMap_map, Function.comp]
    have hallrows : ∀ row ∈ (sch.map Col.name) ::
        (r0 :: recs').map (fun r => r.map serializeField), row ≠ [] := by
      intro row hrow
      rcases List.mem_cons.mp hrow with rfl | hmem
      · simp [hsch]
      · obtain ⟨r, hr, rfl⟩ := List.mem_map.mp hmem
        have hlen := (hrec r hr).1
        intro hc
        have hzero : r.length = 0 := by
          have := congrArg List.length hc
          simpa using this
        rw [hlen] at hzero
        exact hsch (List.length_eq_zero.mp hzero)
    have hparse : parseRecords d true (writeContent sch (r0 :: recs') d true) =
        (sch.map Col.name) :: (r0 :: recs').map (fun r => r.map serializeField) := by
      rw [hrows]
      unfold parseRecords
      exact parseRecordsFuel_inv d hd hdn _ _ hallrows le_rfl
    have hmaps : ((r0 :: recs').map (fun r => r.map serializeField)).mapM
        (rowToRecord sch (sch.map Col.name)) = some (r0 :: recs') := by
      apply mapM_rowToRecord
      intro r hr
      exact rowToRecord_inv sch r hnd (hrec r hr).1 (hrec r hr).2
    unfold readDelim
    rw [hparse]
    simp only [hmaps]

theorem mapM_option_none {α β : Type} (F : α → Option β) :
    ∀ l : List α, (∃ x ∈ l, F x = none) → l.mapM F = none := by
  intro l
  induction l with
  | nil => rintro ⟨x, hx, -⟩; cases hx
  | cons a l ih =>
    rintro ⟨x, hx, hFx⟩
    rw [List.mapM_cons]
    rcases List.mem_cons.mp hx with rfl | hmem
    · rw [hFx]; rfl
    · cases hFa : F a with
      | none => rfl
      | some b => rw [ih ⟨x, hmem, hFx⟩]; rfl

/-! ## C2: record round-trip through write_csv/read_csv and write_tsv/read_tsv -/

/-- C2 (amended): for every path (including `.gz`-suffixed ones) and
every sequence of records conforming to a non-empty schema with distinct
field names — each record one field per column, required columns holding
text, optional columns absent or holding non-empty text — `write_csv`
then `read_csv`, and `write_tsv` then `read_tsv`, return the records
field-for-field; in particular commas survive CSV quoting and absent
optional fields come back absent. -/
theorem delim_records_roundtrip (fs : FS) (p : String) (sch : Schema) (recs : List Record)
    (hsch : sch ≠ [])
    (hnd : (sch.map Col.name).Nodup)
    (hrec : ∀ r ∈ recs, recOk sch r) :
    DelimFile.read_csv (DelimFile.write_csv fs p sch recs) p sch = .ok recs ∧
    DelimFile.read_tsv (DelimFile.write_tsv fs p sch recs) p sch = .ok recs := by
  have gen : ∀ d : Char, d ≠ '"' → d ≠ '\n' →
      DelimFile.read (DelimFile.write fs p sch recs d true) p sch d true = .ok recs := by
    intro d hd hdn
    unfold DelimFile.read DelimFile.write Io.new_reader
    have hsel : (fun q => if q = p then
          some (Io.encodeForPath p (writeContent sch recs d true)) else fs q) p =
        some (Io.encodeForPath p (writeContent sch recs d true)) := if_pos rfl
    rw [hsel]
    show (Io.decodeForPath p (Io.encodeForPath p (writeContent sch recs d true))).bind
      (readDelim sch d true) = .ok recs
    rw [decode_encodeForPath]
    show readDelim sch d true (writeContent sch recs d true) = .ok recs
    exact readDelim_writeContent sch recs d hd hdn hsch hnd hrec
  exact ⟨gen ',' (by decide) (by decide), gen '\t' (by decide) (by decide)⟩

/-- Witness for C2: a two-column schema round-trips a comma-containing
text field, an absent optional field, and a single-column record whose
sole required field is the empty string (written as a quoted empty
field), through a plain `.csv` path and a gzip `.tsv.gz` path. -/
theorem delim_records_roundtrip_witness :
    DelimFile.read_csv (DelimFile.write_csv (fun _ => none) "r.csv"
        [⟨['s'], .required⟩, ⟨['o'], .optional⟩]
        [[.text ['a', ',', 'b'], .absent]]) "r.csv"
        [⟨['s'], .required⟩, ⟨['o'], .optional⟩] =
      .ok [[.text ['a', ',', 'b'], .absent]] ∧
    DelimFile.read_tsv (DelimFile.write_tsv (fun _ => none) "r.tsv.gz"
        [⟨['s'], .required⟩]
        [[.text []], [.text ['x']]]) "r.tsv.gz"
        [⟨['s'], .required⟩] =
      .ok [[.text []], [.text ['x']]] :=
  ⟨(delim_records_roundtrip (fun _ => none) "r.csv" _ _ (by decide) (by decide)
      (by decide)).1,
   (delim_records_roundtrip (fun _ => none) "r.tsv.gz" _ _ (by decide) (by decide)
      (by decide)).2⟩

/-- Counterexample to C2 as stated: a present-but-empty optional field
(serde `Some ""`) is written as an empty field, indistinguishable from
`None`, and reads back as absent — not equal field-for-field to the
original record. -/
theorem delim_records_some_empty_counterexample :
    DelimFile.read_csv (DelimFile.write_csv (fun _ => none) "c.csv"
        [⟨['s'], .required⟩, ⟨['o'], .optional⟩]
        [[.text ['a'], .text []]]) "c.csv"
        [⟨['s'], .required⟩, ⟨['o'], .optional⟩] =
      .ok [[.text ['a'], .absent]] ∧
    DelimFile.read_csv (DelimFile.write_csv (fun _ => none) "c.csv"
        [⟨['s'], .required⟩, ⟨['o'], .optional⟩]
        [[.text ['a'], .text []]]) "c.csv"
        [⟨['s'], .required⟩, ⟨['o'], .optional⟩] ≠
      .ok [[.text ['a'], .text []]] := by
  constructor
  · decide
  · decide

/-! ## C3: header row and the empty-record write -/

/-- Counterexample to C3 as stated: writing zero records produces an
empty file, not a header-only file — the csv serializer only emits the
header when the first record is serialized, so the written content is
empty and parses to zero rows (hence no header row was written). -/
theorem empty_write_no_header :
    writeContent [⟨['s'], .required⟩] [] ',' true = [] ∧
    parseRecords ',' true (writeContent [⟨['s'], .required⟩] [] ',' true) = [] :=
  ⟨rfl, rfl⟩

/-- C3 (amended): when at least one record is written, exactly one header
row — the schema's field names in declared order — is written first;
writing zero records produces an empty file; and reading a file written
from zero records yields zero records without error. -/
theorem header_with_first_record (fs : FS) (p : String) (sch : Schema)
    (recs : List Record) (d : Char) (q : Bool) :
    (recs ≠ [] → writeContent sch recs d q =
      rowText d q (sch.map Col.name) ++
        recs.flatMap (fun r => rowText d q (r.map serializeField))) ∧
    writeContent sch [] d q = [] ∧
    DelimFile.read (DelimFile.write fs p sch [] d q) p sch d q = .ok [] := by
  refine ⟨?_, rfl, ?_⟩
  · intro h
    cases recs with
    | nil => exact absurd rfl h
    | cons r rs => rfl
  · unfold DelimFile.read DelimFile.write Io.new_reader
    have hsel : (fun x => if x = p then
          some (Io.encodeForPath p (writeContent sch [] d q)) else fs x) p =
        some (Io.encodeForPath p (writeContent sch [] d q)) := if_pos rfl
    rw [hsel]
    show (Io.decodeForPath p (Io.encodeForPath p (writeContent sch [] d q))).bind
      (readDelim sch d q) = .ok []
    rw [decode_encodeForPath]
    rfl

/-- Witness for C3: the amended statement evaluated on a one-column
schema, one record, and an empty record sequence. -/
theorem header_with_first_record_witness :
    writeContent [⟨['s'], .required⟩] [[.text ['a']]] ',' true =
      rowText ',' true [['s']] ++
        [[FieldVal.text ['a']]].flatMap
          (fun r => rowText ',' true (r.map serializeField)) ∧
    writeContent [⟨['s'], .required⟩] [] ',' true = [] ∧
    DelimFile.read (DelimFile.write (fun _ => none) "e.csv" [⟨['s'], .required⟩] [] ',' true)
      "e.csv" [⟨['s'], .required⟩] ',' true = .ok [] :=
  ⟨(header_with_first_record (fun _ => none) "e.csv" [⟨['s'], .required⟩]
      [[.text ['a']]] ',' true).1 (by decide),
   (header_with_first_record (fun _ => none) "e.csv" [⟨['s'], .required⟩]
      [[.text ['a']]] ',' true).2.1,
   (header_with_first_record (fun _ => none) "e.csv" [⟨['s'], .required⟩]
      [[.text ['a']]] ',' true).2.2⟩

/-! ## C8: error propagation on read -/

/-- C8: `new_reader` fails with an I/O error when the path is missing or
the zstd decoder cannot initialize on the stored bytes, and a single
data row that fails record conversion makes the whole delimited read
fail with a conversion error — no partial result. -/
theorem read_error_propagation :
    (∀ (fs : FS) (p : String), fs p = none → Io.new_reader fs p = .error .ioError) ∧
    (∀ (fs : FS) (p : String) (bs : Text), fs p = some bs → Io.is_zstd_path p = true →
      zstdDecode bs = .error .ioError → Io.new_reader fs p = .error .ioError) ∧
    (∀ (sch : Schema) (d : Char) (q : Bool) (content : Text) (header : List Text)
      (rows : List (List Text)),
      parseRecords d q content = header :: rows →
      (∃ row ∈ rows, rowToRecord sch header row = none) →
      readDelim sch d q content = .error .conversionError) := by
  refine ⟨?_, ?_, ?_⟩
  · intro fs p h
    unfold Io.new_reader
    rw [h]
  · intro fs p bs hfs hz hdec
    unfold Io.new_reader
    rw [hfs]
    show Io.decodeForPath p bs = .error .ioError
    unfold Io.decodeForPath
    have hg : Io.is_gzip_path p = false := by
      cases hgz : Io.is_gzip_path p
      · rfl
      · exfalso
        have hx := (classification_by_extension.1 p).mp hgz
        have hy := (classification_by_extension.2.1 p).mp hz
        rcases hx with hx | hx <;> rw [hx] at hy <;> exact Option.some.inj hy |> fun he => by
          simp at he
    rw [hg, hz]
    show zstdDecode bs = .error .ioError
    exact hdec
  · intro sch d q content header rows hparse hbad
    unfold readDelim
    rw [hparse]
    simp only [mapM_option_none (rowToRecord sch header) rows hbad]

/-- Witness for C8: a missing path, a one-byte `.zst` file, and a data
row with one column too many. -/
theorem read_error_propagation_witness :
    Io.new_reader (fun _ => none) "x.txt" = .error .ioError ∧
    Io.new_reader (fun q => if q = "y.zst" then some ['a'] else none) "y.zst" =
      .error .ioError ∧
    readDelim [⟨['s'], .required⟩] ',' true ("s\na,b\n".toList) = .error .conversionError :=
  ⟨read_error_propagation.1 (fun _ => none) "x.txt" rfl,
   read_error_propagation.2.1 (fun q => if q = "y.zst" then some ['a'] else none) "y.zst"
     ['a'] (by decide) (by decide) (by decide),
   read_error_propagation.2.2 [⟨['s'], .required⟩] ',' true ("s\na,b\n".toList)
     [['s']] [[['a'], ['b']]] (by decide) ⟨[['a'], ['b']], by decide, by decide⟩⟩

/-! ## C9: convenience presets -/

/-- C9: `write_csv`/`write_tsv`/`read_csv`/`read_tsv` are exactly `write`
and `read` with the delimiter fixed to comma or tab and quoting enabled —
pure parameter presets with no additional logic. -/
theorem convenience_presets (fs : FS) (p : String) (sch : Schema) (recs : List Record) :
    DelimFile.write_csv fs p sch recs = DelimFile.write fs p sch recs ',' true ∧
    DelimFile.write_tsv fs p sch recs = DelimFile.write fs p sch recs '\t' true ∧
    DelimFile.read_csv fs p sch = DelimFile.read fs p sch ',' true ∧
    DelimFile.read_tsv fs p sch = DelimFile.read fs p sch '\t' true :=
  ⟨rfl, rfl, rfl, rfl⟩

/-! ## C7: finalization failures and drop-based trailer writes -/

/-- C7 (code behavior at the failing input): on a device with room for
the flushed gzip body but not the trailer, `write_lines` returns `Ok`
(its result is the final explicit `flush`, fixed before `Drop` writes
the trailer and discards the trailer's error), yet finalization failed
and the truncated file does not decode. -/
theorem write_lines_trailer_failure_masked :
    Io.write_lines_gz_capped 5 [['a', 'b']] = (.ok (), false) ∧
    gzipDecode (GZ_MAGIC ++ linesText [['a', 'b']]) = .error .ioError := by
  constructor
  · decide
  · decide

/-- Witness for C5: concrete chains at levels 3 and 9 — the gzip chain
carries the configured level, the zstd chains coincide. -/
theorem writer_chain_levels_witness :
    Io.new_writer_chain (Io.new 3 64) "x.gz" = .gzip 3 64 ∧
    Io.new_writer_chain (Io.new 3 64) "x.zst" = .zstd 0 true 64 ∧
    Io.new_writer_chain (Io.new 3 64) "x.zst" = Io.new_writer_chain (Io.new 9 64) "x.zst" :=
  ⟨(writer_chain_levels 3 9 64 "x.gz").1 (by decide),
   ((writer_chain_levels 3 9 64 "x.zst").2 (by decide)).1,
   ((writer_chain_levels 3 9 64 "x.zst").2 (by decide)).2⟩
